import Mathlib

/-!
Shallow embedding of `approx_pearson_skew` (`src/lib.rs`).

Byte slices (`&[u8]`) are modelled as `List Nat`; the 8-bit domain bound
`x ≤ 255` appears as a hypothesis on theorems where it matters.
`f32` (`Rational` in the source) is modelled as `ℚ`: every quantity the
median-equivalence claims compare (byte values, one addition of two bytes,
one halving) is exactly representable in `f32`, so exact rational
arithmetic is a faithful reading there.  The external `micromath`
approximate square root (not part of this repository) is kept abstract as
an explicit function argument to `std_dev_pop` and `pearson_skew_median`.

The Rust `while` loops in `kth_ind` and `median` are embedded as
fuel-indexed recursions: `none` marks fuel exhaustion (the Rust loop still
running); the termination claims prove fuel `k + 1` always suffices.
-/

namespace ApproxPearsonSkew

/-- `Word::max_value()` for the `u8` slice word type. -/
def wordMax : Nat := 255

/-- `Rational` (`f32` in the source), modelled as `ℚ`. -/
abbrev Rational := ℚ

/-- `mean` (src/lib.rs:28): sum all elements then divide by the length;
`None` on the empty slice. -/
def mean (slice : List Nat) : Option Rational :=
  if slice = [] then none
  else some ((slice.foldl (fun (acc : Rational) (e : Nat) => acc + (e : Rational)) 0) /
    (slice.length : Rational))

/-- One iteration of the `for (i, e) in slice.iter().enumerate()` loop in the
`prev = Some(l_ex)` arm of `next_min` (src/lib.rs:62-80).  State is
`(v_in, v_ind, c, v_found)`. -/
def nmStepSome (l_ex e i : Nat) (st : Nat × Nat × Nat × Bool) : Nat × Nat × Nat × Bool :=
  match st with
  | (v_in, v_ind, c, v_found) =>
    if l_ex < e ∧ e < v_in then (e, i, 1, true)
    else if e = v_in then
      if v_found then (v_in, v_ind, c + 1, v_found) else (e, i, c + 1, true)
    else (v_in, v_ind, c, v_found)

/-- The whole enumerate loop of the sentinel arm of `next_min`, threading the
running index `i`. -/
def nmLoopSome (l_ex : Nat) : List Nat → Nat → Nat × Nat × Nat × Bool → Nat × Nat × Nat × Bool
  | [], _, st => st
  | e :: rest, i, st => nmLoopSome l_ex rest (i + 1) (nmStepSome l_ex e i st)

/-- One iteration of the enumerate loop in the `prev = None` arm of
`next_min` (src/lib.rs:87-99).  State is `(v_in, v_ind, c)`. -/
def nmStepNone (e i : Nat) (st : Nat × Nat × Nat) : Nat × Nat × Nat :=
  match st with
  | (v_in, v_ind, c) =>
    if e < v_in then (e, i, 1)
    else if e = v_in then (v_in, v_ind, c + 1)
    else (v_in, v_ind, c)

/-- The whole enumerate loop of the no-sentinel arm of `next_min`. -/
def nmLoopNone : List Nat → Nat → Nat × Nat × Nat → Nat × Nat × Nat
  | [], _, st => st
  | e :: rest, i, st => nmLoopNone rest (i + 1) (nmStepNone e i st)

/-- `next_min` (src/lib.rs:53): first index and occurrence count of the
smallest value strictly greater than the sentinel `prev` (or the smallest
value overall when `prev` is absent). -/
def next_min (slice : List Nat) (prev : Option Nat) : Option (Nat × Nat) :=
  if slice = [] then none
  else
    match prev with
    | some l_ex =>
      match nmLoopSome l_ex slice 0 (wordMax, 0, 0, false) with
      | (v_in, v_ind, c, _) =>
        let c := if l_ex = v_in then 0 else c
        if 0 < c then some (v_ind, c) else none
    | none =>
      match nmLoopNone slice 0 (wordMax, 0, 0) with
      | (_, v_ind, c) => if 0 < c then some (v_ind, c) else none

/-- The `while items <= k` loop of `kth_ind` (src/lib.rs:128-140), with fuel.
`none` means the fuel ran out while the Rust loop would still be running. -/
def kth_loop (s : List Nat) (k : Nat) : Nat → Nat → Option Nat → Option (Option Nat)
  | 0, items, v_ind => if items ≤ k then none else some v_ind
  | fuel + 1, items, v_ind =>
    if items ≤ k then
      match next_min s (v_ind.map fun v_i => s.getD v_i 0) with
      | some (ind, count) => kth_loop s k fuel (items + count) (some ind)
      | none => kth_loop s k fuel items v_ind
    else some v_ind

/-- `kth_ind` (src/lib.rs:122): index of the k-th smallest value of the
unsorted slice.  Fuel `k + 1` is proved sufficient below. -/
def kth_ind (s : List Nat) (k : Nat) : Option Nat :=
  if s.length ≤ k then none
  else
    match kth_loop s k (k + 1) 0 none with
    | some r => r
    | none => none

/-- State of the fused median search loop (src/lib.rs:164-182). -/
structure MedState where
  items : Nat
  v_items : Nat
  v_ind : Option Nat
  p_ind : Option Nat
deriving Repr, DecidableEq

/-- The `while items <= k` loop of `median`, with fuel; `p_ind` is set to the
old `v_ind` at the top of every iteration, as in the source. -/
def med_loop (s : List Nat) (k : Nat) : Nat → MedState → Option MedState
  | 0, st => if st.items ≤ k then none else some st
  | fuel + 1, st =>
    if st.items ≤ k then
      match next_min s (st.v_ind.map fun v_i => s.getD v_i 0) with
      | some (ind, count) =>
        med_loop s k fuel ⟨st.items + count, count, some ind, st.v_ind⟩
      | none => med_loop s k fuel ⟨st.items, st.v_items, st.v_ind, st.v_ind⟩
    else some st

/-- `median` (src/lib.rs:154): fused selection of the `len/2`-th (and for even
length possibly the `len/2 - 1`-th) order statistic.  The `unwrap`s of the
source are modelled with `getD` defaults; the safety claim proves the
defaults are never reached. -/
def median (s : List Nat) : Option Rational :=
  if s = [] then none
  else
    let k := s.length / 2
    match med_loop s k (k + 1) ⟨0, 0, none, none⟩ with
    | none => none
    | some st =>
      let med : Rational := ((s.getD (st.v_ind.getD 0) 0 : Nat) : Rational)
      if s.length % 2 = 0 then
        let p_total_items := st.items - st.v_items
        let k_l := k - 1
        if k_l < p_total_items then
          some ((med + ((s.getD (st.p_ind.getD 0) 0 : Nat) : Rational)) / 2)
        else some med
      else some med

/-- `median_mut` (src/lib.rs:374, the sorting reference used by the tests):
sort ascending, take the middle element, averaging the two middles for even
length. -/
def median_mut (s : List Nat) : Option Rational :=
  if s = [] then none
  else
    let sorted := s.insertionSort (· ≤ ·)
    let i := s.length / 2
    let med : Rational := ((sorted.getD i 0 : Nat) : Rational)
    if s.length % 2 = 0 then
      some ((med + ((sorted.getD (i - 1) 0 : Nat) : Rational)) / 2)
    else some med

/-- `std_dev_pop` (src/lib.rs:218): population standard deviation with a
caller-supplied mean; the `micromath` square root is abstracted as
`sqrtApprox`. -/
def std_dev_pop (sqrtApprox : Rational → Rational) (avg : Rational) (slice : List Nat) :
    Option Rational :=
  if slice = [] then none
  else
    let sq_sum := slice.foldl
      (fun (acc : Rational) (e : Nat) =>
        acc + (((e : Rational) - avg) * ((e : Rational) - avg))) 0
    some (sqrtApprox (sq_sum / (slice.length : Rational)))

/-- `pearson_skew_median` (src/lib.rs:243): `3 (mean - median) / std_dev`,
each constituent short-circuiting on `None`. -/
def pearson_skew_median (sqrtApprox : Rational → Rational) (slice : List Nat) :
    Option Rational :=
  match mean slice with
  | none => none
  | some avg =>
    match median slice with
    | none => none
    | some med =>
      match std_dev_pop sqrtApprox avg slice with
      | none => none
      | some std => some ((3 * (avg - med)) / std)

/-! ## Generic list helpers -/

/-- Count of elements `≤ v` (the number of items a value `v` covers in sorted
order). -/
def cntLE (s : List Nat) (v : Nat) : Nat := s.countP (fun x => decide (x ≤ v))

/-- Count of elements `< v`. -/
def cntLT (s : List Nat) (v : Nat) : Nat := s.countP (fun x => decide (x < v))

theorem cntLE_eq_cntLT_add_count (s : List Nat) (v : Nat) :
    cntLE s v = cntLT s v + s.count v := by
  induction s with
  | nil => simp [cntLE, cntLT]
  | cons a t ih =>
    simp only [cntLE, cntLT, List.countP_cons, List.count_cons, beq_iff_eq]
    simp only [cntLE, cntLT] at ih
    rw [ih]
    split_ifs <;> simp_all <;> omega

theorem count_le_cntLE (s : List Nat) (v : Nat) : s.count v ≤ cntLE s v := by
  induction s with
  | nil => simp [cntLE]
  | cons a t ih =>
    simp only [cntLE, List.countP_cons, List.count_cons, beq_iff_eq]
    simp only [cntLE] at ih
    split_ifs <;> simp_all <;> omega

theorem cntLE_le_length (s : List Nat) (v : Nat) : cntLE s v ≤ s.length :=
  List.countP_le_length _

theorem cntLT_le_cntLE (s : List Nat) (v : Nat) : cntLT s v ≤ cntLE s v := by
  have := cntLE_eq_cntLT_add_count s v
  omega

/-- If not every element is `≤ v`, some element exceeds `v`. -/
theorem exists_gt_of_cntLE_lt_length {s : List Nat} {v : Nat}
    (h : cntLE s v < s.length) : ∃ x ∈ s, v < x := by
  by_contra hcon
  push_neg at hcon
  have : cntLE s v = s.length := by
    unfold cntLE
    rw [List.countP_eq_length]
    intro a ha
    simpa using hcon a ha
  omega

/-- When `w` is the least element strictly above `v`, the elements `< w` are
exactly the elements `≤ v`. -/
theorem cntLT_eq_cntLE_of_min_gt {s : List Nat} {v w : Nat} (hvw : v < w)
    (hmin : ∀ x ∈ s, v < x → w ≤ x) : cntLT s w = cntLE s v := by
  induction s with
  | nil => simp [cntLE, cntLT]
  | cons a t ih =>
    have ha : v < a → w ≤ a := hmin a (by simp)
    have ht : ∀ x ∈ t, v < x → w ≤ x := fun x hx => hmin x (by simp [hx])
    simp only [cntLE, cntLT, List.countP_cons] at *
    have := ih ht
    split_ifs <;> simp_all <;> omega

/-- Positions before the first occurrence of `a` hold values other than `a`. -/
theorem get_ne_of_lt_indexOf {l : List Nat} {a j : Nat} (h : j < l.length)
    (hj : j < l.indexOf a) : l.get ⟨j, h⟩ ≠ a := by
  induction l generalizing j with
  | nil => simp at h
  | cons b t ih =>
    by_cases hba : b = a
    · rw [List.indexOf_cons_eq t hba] at hj
      omega
    · cases j with
      | zero => simpa using hba
      | succ j' =>
        rw [List.indexOf_cons_ne t hba] at hj
        exact ih _ (Nat.lt_of_succ_lt_succ hj)

/-! ## Invariants of the scan loops inside `next_min` -/

/-- Values the sentinel arm of the scan tracks: strictly above the sentinel,
or equal to `wordMax` (the initial running minimum, counted by the
`(_, Ordering::Equal)` arm and cancelled afterwards when the sentinel is
itself `wordMax`). -/
def RelB (l_ex x : Nat) : Prop := l_ex < x ∨ x = wordMax

instance (l_ex x : Nat) : Decidable (RelB l_ex x) := by
  unfold RelB; infer_instance

/-- Invariant of the sentinel scan after consuming the prefix `q`. -/
def InvSome (l_ex : Nat) (q : List Nat) : Nat × Nat × Nat × Bool → Prop
  | (v_in, v_ind, c, v_found) =>
    ((∀ x ∈ q, ¬ RelB l_ex x) ∧ v_in = wordMax ∧ v_ind = 0 ∧ c = 0 ∧ v_found = false)
    ∨ (v_found = true ∧ RelB l_ex v_in ∧ v_in ∈ q ∧ (∀ x ∈ q, RelB l_ex x → v_in ≤ x)
        ∧ v_ind = q.indexOf v_in ∧ c = q.count v_in)

/-- Invariant of the no-sentinel scan after consuming the prefix `q`. -/
def InvNone (q : List Nat) : Nat × Nat × Nat → Prop
  | (v_in, v_ind, c) =>
    (q = [] ∧ v_in = wordMax ∧ v_ind = 0 ∧ c = 0)
    ∨ (v_in ∈ q ∧ (∀ x ∈ q, v_in ≤ x) ∧ v_ind = q.indexOf v_in ∧ c = q.count v_in)

theorem indexOf_append_self_of_not_mem {q : List Nat} {e : Nat} (h : e ∉ q) :
    (q ++ [e]).indexOf e = q.length := by
  rw [List.indexOf_append_of_not_mem h]
  simp

theorem count_append_singleton_self (q : List Nat) (e : Nat) :
    (q ++ [e]).count e = q.count e + 1 := by
  simp

theorem count_append_singleton_ne {e m : Nat} (q : List Nat) (h : m ≠ e) :
    (q ++ [e]).count m = q.count m := by
  simp [List.count_append, List.count_singleton', h]

/-- One scan step preserves the sentinel-arm invariant. -/
theorem nmStepSome_inv {l_ex e : Nat} {q : List Nat} {st : Nat × Nat × Nat × Bool}
    (hq : ∀ x ∈ q, x ≤ 255) (he : e ≤ 255) (hinv : InvSome l_ex q st) :
    InvSome l_ex (q ++ [e]) (nmStepSome l_ex e q.length st) := by
  have hw : wordMax = 255 := rfl
  obtain ⟨v_in, v_ind, c, v_found⟩ := st
  simp only [nmStepSome]
  rcases hinv with ⟨hA, h1, h2, h3, h4⟩ | ⟨hf, hrel, hmem, hmin, hind, hc⟩
  · subst h1; subst h2; subst h3; subst h4
    by_cases hRe : RelB l_ex e
    · by_cases he255 : e = wordMax
      · subst he255
        have hnm : wordMax ∉ q := fun hm => hA _ hm (Or.inr rfl)
        rw [if_neg (by omega), if_pos rfl]
        simp only [Bool.false_eq_true, if_false]
        refine Or.inr ⟨rfl, Or.inr rfl, by simp, ?_, ?_, ?_⟩
        · intro x hx hrx
          rcases List.mem_append.mp hx with hxq | hxe
          · exact absurd hrx (hA x hxq)
          · simp at hxe
            omega
        · exact (indexOf_append_self_of_not_mem hnm).symm
        · rw [count_append_singleton_self, List.count_eq_zero_of_not_mem hnm]
      · have hle : l_ex < e := hRe.resolve_right he255
        have hnm : e ∉ q := fun hm => hA _ hm hRe
        rw [if_pos ⟨hle, by omega⟩]
        refine Or.inr ⟨rfl, hRe, by simp, ?_, ?_, ?_⟩
        · intro x hx hrx
          rcases List.mem_append.mp hx with hxq | hxe
          · exact absurd hrx (hA x hxq)
          · simp at hxe
            omega
        · exact (indexOf_append_self_of_not_mem hnm).symm
        · rw [count_append_singleton_self, List.count_eq_zero_of_not_mem hnm]
    · rw [if_neg (fun hcon => hRe (Or.inl hcon.1)),
          if_neg (fun hcon : e = wordMax => hRe (Or.inr hcon))]
      refine Or.inl ⟨?_, rfl, rfl, rfl, rfl⟩
      intro x hx
      rcases List.mem_append.mp hx with hxq | hxe
      · exact hA x hxq
      · simp at hxe
        subst hxe
        exact hRe
  · have hm255 : v_in ≤ 255 := hq v_in hmem
    rcases Nat.lt_trichotomy e v_in with hlt | heq | hgt
    · by_cases hRe : RelB l_ex e
      · have hle : l_ex < e := by
          rcases hRe with h | h
          · exact h
          · omega
        have hnm : e ∉ q := fun hm => absurd (hmin e hm hRe) (by omega)
        rw [if_pos ⟨hle, hlt⟩]
        refine Or.inr ⟨rfl, hRe, by simp, ?_, ?_, ?_⟩
        · intro x hx hrx
          rcases List.mem_append.mp hx with hxq | hxe
          · exact le_trans (le_of_lt hlt) (hmin x hxq hrx)
          · simp at hxe
            omega
        · exact (indexOf_append_self_of_not_mem hnm).symm
        · rw [count_append_singleton_self, List.count_eq_zero_of_not_mem hnm]
      · rw [if_neg (fun hcon => hRe (Or.inl hcon.1)), if_neg (by omega)]
        refine Or.inr ⟨hf, hrel, List.mem_append_left _ hmem, ?_, ?_, ?_⟩
        · intro x hx hrx
          rcases List.mem_append.mp hx with hxq | hxe
          · exact hmin x hxq hrx
          · simp at hxe
            subst hxe
            exact absurd hrx hRe
        · rw [List.indexOf_append_of_mem hmem]
          exact hind
        · rw [count_append_singleton_ne _ (by omega)]
          exact hc
    · subst heq
      rw [if_neg (by omega), if_pos rfl, hf]
      simp only [if_true]
      refine Or.inr ⟨rfl, hrel, List.mem_append_left _ hmem, ?_, ?_, ?_⟩
      · intro x hx hrx
        rcases List.mem_append.mp hx with hxq | hxe
        · exact hmin x hxq hrx
        · simp at hxe
          omega
      · rw [List.indexOf_append_of_mem hmem]
        exact hind
      · rw [count_append_singleton_self, hc]
    · rw [if_neg (by omega), if_neg (by omega)]
      refine Or.inr ⟨hf, hrel, List.mem_append_left _ hmem, ?_, ?_, ?_⟩
      · intro x hx hrx
        rcases List.mem_append.mp hx with hxq | hxe
        · exact hmin x hxq hrx
        · simp at hxe
          omega
      · rw [List.indexOf_append_of_mem hmem]
        exact hind
      · rw [count_append_singleton_ne _ (by omega)]
        exact hc

/-- The sentinel scan maintains its invariant over any suffix. -/
theorem nmLoopSome_inv (l_ex : Nat) :
    ∀ (rest q : List Nat) (st : Nat × Nat × Nat × Bool),
      (∀ x ∈ q, x ≤ 255) → (∀ x ∈ rest, x ≤ 255) → InvSome l_ex q st →
      InvSome l_ex (q ++ rest) (nmLoopSome l_ex rest q.length st)
  | [], q, st, _, _, hinv => by simpa [nmLoopSome] using hinv
  | e :: rest, q, st, hq, hrest, hinv => by
    have he : e ≤ 255 := hrest e (by simp)
    have hrest' : ∀ x ∈ rest, x ≤ 255 := fun x hx => hrest x (by simp [hx])
    have hq' : ∀ x ∈ q ++ [e], x ≤ 255 := by
      intro x hx
      rcases List.mem_append.mp hx with hxq | hxe
      · exact hq x hxq
      · simp at hxe
        omega
    have hstep := nmStepSome_inv hq he hinv
    have := nmLoopSome_inv l_ex rest (q ++ [e]) _ hq' hrest' hstep
    simpa [nmLoopSome, List.append_assoc] using this

/-- One scan step preserves the no-sentinel-arm invariant. -/
theorem nmStepNone_inv {e : Nat} {q : List Nat} {st : Nat × Nat × Nat}
    (hq : ∀ x ∈ q, x ≤ 255) (he : e ≤ 255) (hinv : InvNone q st) :
    InvNone (q ++ [e]) (nmStepNone e q.length st) := by
  have hw : wordMax = 255 := rfl
  obtain ⟨v_in, v_ind, c⟩ := st
  simp only [nmStepNone]
  rcases hinv with ⟨hq0, h1, h2, h3⟩ | ⟨hmem, hmin, hind, hc⟩
  · subst hq0; subst h1; subst h2; subst h3
    rcases Nat.lt_or_ge e wordMax with hlt | hge
    · rw [if_pos hlt]
      refine Or.inr ⟨by simp, by simp, by simp, by simp⟩
    · have he255 : e = wordMax := by omega
      subst he255
      rw [if_neg (by omega), if_pos rfl]
      refine Or.inr ⟨by simp, by simp, by simp, by simp⟩
  · have hm255 : v_in ≤ 255 := hq v_in hmem
    rcases Nat.lt_trichotomy e v_in with hlt | heq | hgt
    · have hnm : e ∉ q := fun hm => absurd (hmin e hm) (by omega)
      rw [if_pos hlt]
      refine Or.inr ⟨by simp, ?_, ?_, ?_⟩
      · intro x hx
        rcases List.mem_append.mp hx with hxq | hxe
        · exact le_trans (le_of_lt hlt) (hmin x hxq)
        · simp at hxe
          omega
      · exact (indexOf_append_self_of_not_mem hnm).symm
      · rw [count_append_singleton_self, List.count_eq_zero_of_not_mem hnm]
    · subst heq
      rw [if_neg (by omega), if_pos rfl]
      refine Or.inr ⟨List.mem_append_left _ hmem, ?_, ?_, ?_⟩
      · intro x hx
        rcases List.mem_append.mp hx with hxq | hxe
        · exact hmin x hxq
        · simp at hxe
          omega
      · rw [List.indexOf_append_of_mem hmem]
        exact hind
      · rw [count_append_singleton_self, hc]
    · rw [if_neg (by omega), if_neg (by omega)]
      refine Or.inr ⟨List.mem_append_left _ hmem, ?_, ?_, ?_⟩
      · intro x hx
        rcases List.mem_append.mp hx with hxq | hxe
        · exact hmin x hxq
        · simp at hxe
          omega
      · rw [List.indexOf_append_of_mem hmem]
        exact hind
      · rw [count_append_singleton_ne _ (by omega)]
        exact hc

/-- The no-sentinel scan maintains its invariant over any suffix. -/
theorem nmLoopNone_inv :
    ∀ (rest q : List Nat) (st : Nat × Nat × Nat),
      (∀ x ∈ q, x ≤ 255) → (∀ x ∈ rest, x ≤ 255) → InvNone q st →
      InvNone (q ++ rest) (nmLoopNone rest q.length st)
  | [], q, st, _, _, hinv => by simpa [nmLoopNone] using hinv
  | e :: rest, q, st, hq, hrest, hinv => by
    have he : e ≤ 255 := hrest e (by simp)
    have hrest' : ∀ x ∈ rest, x ≤ 255 := fun x hx => hrest x (by simp [hx])
    have hq' : ∀ x ∈ q ++ [e], x ≤ 255 := by
      intro x hx
      rcases List.mem_append.mp hx with hxq | hxe
      · exact hq x hxq
      · simp at hxe
        omega
    have hstep := nmStepNone_inv hq he hinv
    have := nmLoopNone_inv rest (q ++ [e]) _ hq' hrest' hstep
    simpa [nmLoopNone, List.append_assoc] using this

/-! ## Characterization of `next_min` -/

/-- Running the no-sentinel scan over a non-empty in-domain slice yields the
minimum value, its first index and its occurrence count. -/
theorem next_min_none_run (s : List Nat) (hs : ∀ x ∈ s, x ≤ 255) (hne : s ≠ []) :
    ∃ v, v ∈ s ∧ (∀ x ∈ s, v ≤ x) ∧
      next_min s none = some (s.indexOf v, s.count v) := by
  have hinv0 : InvNone s (nmLoopNone s 0 (wordMax, 0, 0)) := by
    have h0 : InvNone [] ((wordMax, 0, 0) : Nat × Nat × Nat) :=
      Or.inl ⟨rfl, rfl, rfl, rfl⟩
    simpa using nmLoopNone_inv s [] (wordMax, 0, 0) (by simp) hs h0
  rcases hst : nmLoopNone s 0 (wordMax, 0, 0) with ⟨v_in, v_ind, c⟩
  rw [hst] at hinv0
  have hinv := hinv0
  rcases hinv with ⟨hq0, _, _, _⟩ | ⟨hmem, hmin, hind, hc⟩
  · exact absurd hq0 hne
  · have hcpos : 0 < c := hc ▸ List.count_pos_iff.mpr hmem
    refine ⟨v_in, hmem, hmin, ?_⟩
    simp only [next_min, if_neg hne, hst, if_pos hcpos]
    rw [hind, hc]

/-- `next_min` with no sentinel is `none` exactly on the empty slice. -/
theorem next_min_none_eq_none_iff (s : List Nat) (hs : ∀ x ∈ s, x ≤ 255) :
    next_min s none = none ↔ s = [] := by
  constructor
  · intro h
    by_contra hne
    obtain ⟨v, _, _, hsome⟩ := next_min_none_run s hs hne
    rw [h] at hsome
    exact Option.noConfusion hsome
  · intro h
    subst h
    rfl

/-- Running the sentinel scan when some element exceeds the sentinel yields
the least such value, its first index and its occurrence count. -/
theorem next_min_some_run (s : List Nat) (p : Nat) (hs : ∀ x ∈ s, x ≤ 255)
    (hp : p ≤ 255) (hex : ∃ x ∈ s, p < x) :
    ∃ v, v ∈ s ∧ p < v ∧ (∀ x ∈ s, p < x → v ≤ x) ∧
      next_min s (some p) = some (s.indexOf v, s.count v) := by
  have hw : wordMax = 255 := rfl
  obtain ⟨y, hy, hpy⟩ := hex
  have hne : s ≠ [] := fun h => by simp [h] at hy
  rcases hst : nmLoopSome p s 0 (wordMax, 0, 0, false) with ⟨v_in, v_ind, c, v_found⟩
  have hinv : InvSome p s (v_in, v_ind, c, v_found) := by
    have h0 : InvSome p [] ((wordMax, 0, 0, false) : Nat × Nat × Nat × Bool) :=
      Or.inl ⟨by simp, rfl, rfl, rfl, rfl⟩
    have := nmLoopSome_inv p s [] (wordMax, 0, 0, false) (by simp) hs h0
    simpa [hst] using this
  rcases hinv with ⟨hA, _, _, _, _⟩ | ⟨hf, hrel, hmem, hmin, hind, hc⟩
  · exact absurd (Or.inl hpy) (hA y hy)
  · have hpv : p < v_in := by
      rcases hrel with h | h
      · exact h
      · have := hs y hy
        omega
    have hpne : ¬ p = v_in := by omega
    have hcpos : 0 < c := hc ▸ List.count_pos_iff.mpr hmem
    refine ⟨v_in, hmem, hpv, fun x hx hpx => hmin x hx (Or.inl hpx), ?_⟩
    simp only [next_min, if_neg hne, hst, if_neg hpne, if_pos hcpos]
    rw [hind, hc]

/-- `next_min` with sentinel `p` is `none` exactly on exhaustion: the slice is
empty or no element exceeds `p`. -/
theorem next_min_some_eq_none_iff (s : List Nat) (p : Nat)
    (hs : ∀ x ∈ s, x ≤ 255) (hp : p ≤ 255) :
    next_min s (some p) = none ↔ s = [] ∨ ∀ x ∈ s, x ≤ p := by
  constructor
  · intro h
    by_contra hcon
    push_neg at hcon
    obtain ⟨hne, x, hx, hpx⟩ := hcon
    have hpx' : p < x := by omega
    obtain ⟨v, _, _, _, hsome⟩ := next_min_some_run s p hs hp ⟨x, hx, hpx'⟩
    rw [h] at hsome
    exact Option.noConfusion hsome
  · intro h
    rcases h with h | hall
    · subst h
      rfl
    · have hw : wordMax = 255 := rfl
      by_cases hne : s = []
      · subst hne
        rfl
      rcases hst : nmLoopSome p s 0 (wordMax, 0, 0, false) with ⟨v_in, v_ind, c, v_found⟩
      have hinv : InvSome p s (v_in, v_ind, c, v_found) := by
        have h0 : InvSome p [] ((wordMax, 0, 0, false) : Nat × Nat × Nat × Bool) :=
          Or.inl ⟨by simp, rfl, rfl, rfl, rfl⟩
        have := nmLoopSome_inv p s [] (wordMax, 0, 0, false) (by simp) hs h0
        simpa [hst] using this
      rcases hinv with ⟨_, _, _, hc0, _⟩ | ⟨hf, hrel, hmem, hmin, hind, hc⟩
      · subst hc0
        simp [next_min, if_neg hne, hst]
      · have hvp : v_in ≤ p := hall v_in hmem
        have hpeq : p = v_in := by
          rcases hrel with h | h
          · omega
          · omega
        subst hpeq
        simp [next_min, if_neg hne, hst]

/-- Everything `next_min s (some p) = some (i, c)` promises about `i` and
`c`: `i` is in bounds, the first index of the least value above `p`, and `c`
counts that value. -/
theorem next_min_some_spec (s : List Nat) (p : Nat) (hs : ∀ x ∈ s, x ≤ 255)
    (hp : p ≤ 255) {i c : Nat} (h : next_min s (some p) = some (i, c)) :
    ∃ hi : i < s.length,
      p < s.get ⟨i, hi⟩ ∧ (∀ x ∈ s, p < x → s.get ⟨i, hi⟩ ≤ x) ∧
      i = s.indexOf (s.get ⟨i, hi⟩) ∧ c = s.count (s.get ⟨i, hi⟩) := by
  have hex : ∃ x ∈ s, p < x := by
    by_contra hcon
    push_neg at hcon
    have : next_min s (some p) = none := by
      rw [next_min_some_eq_none_iff s p hs hp]
      exact Or.inr fun x hx => by have := hcon x hx; omega
    rw [this] at h
    exact Option.noConfusion h
  obtain ⟨v, hmem, hpv, hmin, hsome⟩ := next_min_some_run s p hs hp hex
  rw [h] at hsome
  have heq : (i, c) = (s.indexOf v, s.count v) := Option.some.inj hsome
  have hi' : i = s.indexOf v := congrArg Prod.fst heq
  have hc' : c = s.count v := congrArg Prod.snd heq
  subst hi'
  have hlt : s.indexOf v < s.length := List.indexOf_lt_length.mpr hmem
  have hget : s.get ⟨s.indexOf v, hlt⟩ = v := List.indexOf_get hlt
  refine ⟨hlt, ?_, ?_, ?_, ?_⟩
  · rw [hget]
    exact hpv
  · intro x hx hpx
    rw [hget]
    exact hmin x hx hpx
  · rw [hget]
  · rw [hget]
    exact hc'

/-- Everything `next_min s none = some (i, c)` promises: `i` is in bounds and
the first index of the least value of the slice, and `c` counts it. -/
theorem next_min_none_spec (s : List Nat) (hs : ∀ x ∈ s, x ≤ 255)
    {i c : Nat} (h : next_min s none = some (i, c)) :
    ∃ hi : i < s.length,
      (∀ x ∈ s, s.get ⟨i, hi⟩ ≤ x) ∧
      i = s.indexOf (s.get ⟨i, hi⟩) ∧ c = s.count (s.get ⟨i, hi⟩) := by
  have hne : s ≠ [] := by
    intro hcon
    subst hcon
    exact Option.noConfusion h
  obtain ⟨v, hmem, hmin, hsome⟩ := next_min_none_run s hs hne
  rw [h] at hsome
  have heq : (i, c) = (s.indexOf v, s.count v) := Option.some.inj hsome
  have hi' : i = s.indexOf v := congrArg Prod.fst heq
  have hc' : c = s.count v := congrArg Prod.snd heq
  subst hi'
  have hlt : s.indexOf v < s.length := List.indexOf_lt_length.mpr hmem
  have hget : s.get ⟨s.indexOf v, hlt⟩ = v := List.indexOf_get hlt
  refine ⟨hlt, ?_, ?_, ?_⟩
  · intro x hx
    rw [hget]
    exact hmin x hx
  · rw [hget]
  · rw [hget]
    exact hc'

/-! ## Order statistics of sorted lists via counting -/

/-- In a sorted list, the value at index `k` has at most `k` elements below
it and more than `k` elements at or below it. -/
theorem sorted_cnt_bounds (l : List Nat) (hl : l.Sorted (· ≤ ·)) :
    ∀ (k : Nat) (hk : k < l.length),
      cntLT l (l.get ⟨k, hk⟩) ≤ k ∧ k < cntLE l (l.get ⟨k, hk⟩) := by
  induction l with
  | nil => intro k hk; simp at hk
  | cons a t ih =>
    intro k hk
    cases k with
    | zero =>
      constructor
      · have h0 : cntLT t a = 0 := by
          unfold cntLT
          rw [List.countP_eq_zero]
          intro x hx
          have := List.rel_of_sorted_cons hl x hx
          simp
          omega
        simp only [cntLT, List.countP_cons, List.get] at *
        simp [h0]
      · simp only [cntLE, List.countP_cons, List.get]
        simp
    | succ j =>
      have hj : j < t.length := by simpa using hk
      have hat : a ≤ t.get ⟨j, hj⟩ :=
        List.rel_of_sorted_cons hl _ (t.get_mem _ _)
      obtain ⟨ih1, ih2⟩ := ih hl.of_cons j hj
      constructor
      · simp only [cntLT, List.countP_cons, List.get_cons_succ]
        simp only [cntLT] at ih1
        split_ifs <;> omega
      · simp only [cntLE, List.countP_cons, List.get_cons_succ]
        simp only [cntLE] at ih2
        have hd : decide (a ≤ t.get ⟨j, hj⟩) = true := by simpa using hat
        simp only [List.get_eq_getElem] at ih2 hd ⊢
        simp [hd]
        omega

theorem cntLE_le_cntLT_of_lt (l : List Nat) {v w : Nat} (h : v < w) :
    cntLE l v ≤ cntLT l w := by
  induction l with
  | nil => simp [cntLE, cntLT]
  | cons a t ih =>
    simp only [cntLE, cntLT, List.countP_cons] at *
    split_ifs <;> simp_all <;> omega

/-- The counting bounds pin down the value at index `k` of a sorted list. -/
theorem sorted_get_eq_of_cnt (l : List Nat) (hl : l.Sorted (· ≤ ·))
    (k : Nat) (hk : k < l.length) (v : Nat)
    (h1 : cntLT l v ≤ k) (h2 : k < cntLE l v) : l.get ⟨k, hk⟩ = v := by
  obtain ⟨hw1, hw2⟩ := sorted_cnt_bounds l hl k hk
  rcases Nat.lt_trichotomy (l.get ⟨k, hk⟩) v with h | h | h
  · have := cntLE_le_cntLT_of_lt l h
    omega
  · exact h
  · have := cntLE_le_cntLT_of_lt l h
    omega

/-- The sorted copy used to state order-statistic claims. -/
def sortedL (s : List Nat) : List Nat := s.insertionSort (· ≤ ·)

theorem sortedL_length (s : List Nat) : (sortedL s).length = s.length :=
  (List.perm_insertionSort _ s).length_eq

theorem cntLE_sortedL (s : List Nat) (v : Nat) : cntLE (sortedL s) v = cntLE s v :=
  (List.perm_insertionSort _ s).countP_eq _

theorem cntLT_sortedL (s : List Nat) (v : Nat) : cntLT (sortedL s) v = cntLT s v :=
  (List.perm_insertionSort _ s).countP_eq _

/-- A value whose counting bounds bracket rank `k` is the `k`-th entry of the
sorted copy of `s`. -/
theorem sortedL_get_eq_of_cnt (s : List Nat) (k : Nat) (hk : k < s.length)
    (v : Nat) (h1 : cntLT s v ≤ k) (h2 : k < cntLE s v) :
    ∃ hk2 : k < (sortedL s).length, (sortedL s).get ⟨k, hk2⟩ = v := by
  have hk2 : k < (sortedL s).length := by rw [sortedL_length]; exact hk
  refine ⟨hk2, sorted_get_eq_of_cnt _ ?_ k hk2 v ?_ ?_⟩
  · exact List.sorted_insertionSort _ s
  · rw [cntLT_sortedL]; exact h1
  · rw [cntLE_sortedL]; exact h2

/-! ## The search loop of `kth_ind` -/

/-- First selection step: on a non-empty slice, `next_min` without sentinel
finds the minimum; its count covers exactly the elements `≤` it. -/
theorem sel_first_step (s : List Nat) (hs : ∀ x ∈ s, x ≤ 255) (hne : s ≠ []) :
    ∃ ind count, next_min s none = some (ind, count) ∧
      ∃ hi : ind < s.length,
        ind = s.indexOf (s.get ⟨ind, hi⟩) ∧
        count = s.count (s.get ⟨ind, hi⟩) ∧
        cntLE s (s.get ⟨ind, hi⟩) = count ∧
        cntLT s (s.get ⟨ind, hi⟩) = 0 ∧ 1 ≤ count := by
  obtain ⟨v, hmem, hmin, hsome⟩ := next_min_none_run s hs hne
  have hlt : s.indexOf v < s.length := List.indexOf_lt_length.mpr hmem
  have hget : s.get ⟨s.indexOf v, hlt⟩ = v := List.indexOf_get hlt
  have hlt0 : cntLT s v = 0 := by
    unfold cntLT
    rw [List.countP_eq_zero]
    intro x hx
    have := hmin x hx
    simp
    omega
  have hle : cntLE s v = s.count v := by
    have := cntLE_eq_cntLT_add_count s v
    omega
  refine ⟨s.indexOf v, s.count v, hsome, hlt, ?_, ?_, ?_, ?_, ?_⟩
  · rw [hget]
  · rw [hget]
  · rw [hget]
    exact hle
  · rw [hget]
    exact hlt0
  · exact List.count_pos_iff.mpr hmem

/-- Advancing selection step: if the elements `≤ v` do not exhaust the slice,
`next_min` with sentinel `v` finds the next distinct value `w > v`, and the
covered counts advance from `cntLE s v` to `cntLE s w`. -/
theorem sel_advance_step (s : List Nat) (hs : ∀ x ∈ s, x ≤ 255) {v : Nat}
    (hv : v ∈ s) (hroom : cntLE s v < s.length) :
    ∃ ind count, next_min s (some v) = some (ind, count) ∧
      ∃ hi : ind < s.length,
        ind = s.indexOf (s.get ⟨ind, hi⟩) ∧
        count = s.count (s.get ⟨ind, hi⟩) ∧
        v < s.get ⟨ind, hi⟩ ∧
        cntLE s (s.get ⟨ind, hi⟩) = cntLE s v + count ∧
        cntLT s (s.get ⟨ind, hi⟩) = cntLE s v ∧ 1 ≤ count := by
  have hv255 : v ≤ 255 := hs v hv
  have hex : ∃ x ∈ s, v < x := exists_gt_of_cntLE_lt_length hroom
  obtain ⟨w, hmem, hvw, hmin, hsome⟩ := next_min_some_run s v hs hv255 hex
  have hlt : s.indexOf w < s.length := List.indexOf_lt_length.mpr hmem
  have hget : s.get ⟨s.indexOf w, hlt⟩ = w := List.indexOf_get hlt
  have hltw : cntLT s w = cntLE s v := cntLT_eq_cntLE_of_min_gt hvw hmin
  have hlew : cntLE s w = cntLE s v + s.count w := by
    have := cntLE_eq_cntLT_add_count s w
    omega
  refine ⟨s.indexOf w, s.count w, hsome, hlt, ?_, ?_, ?_, ?_, ?_, ?_⟩
  · rw [hget]
  · rw [hget]
  · rw [hget]
    exact hvw
  · rw [hget]
    exact hlew
  · rw [hget]
    exact hltw
  · exact List.count_pos_iff.mpr hmem

/-- Invariant of the `kth_ind` search loop: either nothing has been found yet,
or the found index is the first index of a value whose covered count equals
`items`, with fewer than `items` strictly smaller elements. -/
def KInv (s : List Nat) (k items : Nat) (v_ind : Option Nat) : Prop :=
  (items = 0 ∧ v_ind = none) ∨
  (∃ i, ∃ hi : i < s.length, v_ind = some i ∧
    i = s.indexOf (s.get ⟨i, hi⟩) ∧
    items = cntLE s (s.get ⟨i, hi⟩) ∧
    cntLT s (s.get ⟨i, hi⟩) ≤ k)

/-- The `kth_ind` loop, started in the invariant with enough fuel, terminates
in a state bracketing rank `k`. -/
theorem kth_loop_sound (s : List Nat) (hs : ∀ x ∈ s, x ≤ 255) (k : Nat)
    (hk : k < s.length) :
    ∀ (fuel items : Nat) (v_ind : Option Nat),
      KInv s k items v_ind → k < items + fuel →
      ∃ i, ∃ hi : i < s.length, kth_loop s k fuel items v_ind = some (some i) ∧
        i = s.indexOf (s.get ⟨i, hi⟩) ∧
        cntLT s (s.get ⟨i, hi⟩) ≤ k ∧ k < cntLE s (s.get ⟨i, hi⟩) := by
  intro fuel
  induction fuel with
  | zero =>
    intro items v_ind hinv hfuel
    rcases hinv with ⟨h0, _⟩ | ⟨i, hi, hv, hind, hitems, hlt⟩
    · omega
    · refine ⟨i, hi, ?_, hind, hlt, by omega⟩
      simp only [kth_loop, hv]
      rw [if_neg (by omega)]
  | succ fuel ih =>
    intro items v_ind hinv hfuel
    by_cases hik : items ≤ k
    · rcases hinv with ⟨h0, hvnone⟩ | ⟨i, hi, hv, hind, hitems, hlt⟩
      · subst h0
        subst hvnone
        have hne : s ≠ [] := by
          intro hcon
          rw [hcon] at hk
          simp at hk
        obtain ⟨ind, count, hnm, hi', hind', hcount', hle', hlt', hc1⟩ :=
          sel_first_step s hs hne
        have hstep : kth_loop s k (fuel + 1) 0 none =
            kth_loop s k fuel (0 + count) (some ind) := by
          simp only [kth_loop, if_pos hik, Option.map_none', hnm]
        rw [hstep]
        refine ih (0 + count) (some ind) (Or.inr ⟨ind, hi', rfl, hind', by omega, by omega⟩)
          (by omega)
      · subst hv
        have hroom : cntLE s (s.get ⟨i, hi⟩) < s.length := by omega
        obtain ⟨ind, count, hnm, hi', hind', hcount', hgt', hle', hlt', hc1⟩ :=
          sel_advance_step s hs (s.get_mem i hi) hroom
        have hprev : (Option.map (fun v_i => s.getD v_i 0) (some i)) =
            some (s.get ⟨i, hi⟩) := by
          simp only [Option.map_some', List.get_eq_getElem]
          rw [List.getD_eq_getElem s 0 hi]
        have hstep : kth_loop s k (fuel + 1) items (some i) =
            kth_loop s k fuel (items + count) (some ind) := by
          simp only [kth_loop, if_pos hik]
          rw [hprev, hnm]
        rw [hstep]
        refine ih (items + count) (some ind)
          (Or.inr ⟨ind, hi', rfl, hind', by omega, by omega⟩) (by omega)
    · rcases hinv with ⟨h0, _⟩ | ⟨i, hi, hv, hind, hitems, hlt⟩
      · omega
      · refine ⟨i, hi, ?_, hind, hlt, by omega⟩
        simp only [kth_loop, hv]
        rw [if_neg hik]

/-- Full characterization of `kth_ind` on valid ranks: it returns the first
index of the `k`-th entry of the sorted copy. -/
theorem kth_ind_char (s : List Nat) (hs : ∀ x ∈ s, x ≤ 255) (k : Nat)
    (hk : k < s.length) :
    ∃ i, ∃ hi : i < s.length, kth_ind s k = some i ∧
      i = s.indexOf (s.get ⟨i, hi⟩) ∧
      ∃ hk2 : k < (sortedL s).length, (sortedL s).get ⟨k, hk2⟩ = s.get ⟨i, hi⟩ := by
  obtain ⟨i, hi, hloop, hind, hlt, hle⟩ :=
    kth_loop_sound s hs k hk (k + 1) 0 none (Or.inl ⟨rfl, rfl⟩) (by omega)
  refine ⟨i, hi, ?_, hind, ?_⟩
  · simp only [kth_ind]
    rw [if_neg (by omega), hloop]
  · obtain ⟨hk2, hget⟩ := sortedL_get_eq_of_cnt s k hk (s.get ⟨i, hi⟩) hlt hle
    exact ⟨hk2, hget⟩

/-! ## The fused median search loop -/

/-- Invariant of the `median` loop.  On top of the `kth_ind` invariant it
tracks the count of the current value and the previously found index. -/
def MInv (s : List Nat) (k : Nat) (st : MedState) : Prop :=
  (st = ⟨0, 0, none, none⟩) ∨
  (∃ i, ∃ hi : i < s.length, st.v_ind = some i ∧
    i = s.indexOf (s.get ⟨i, hi⟩) ∧
    st.items = cntLE s (s.get ⟨i, hi⟩) ∧
    cntLT s (s.get ⟨i, hi⟩) ≤ k ∧
    st.v_items = s.count (s.get ⟨i, hi⟩) ∧
    ((st.p_ind = none ∧ cntLT s (s.get ⟨i, hi⟩) = 0) ∨
     (∃ j, ∃ hj : j < s.length, st.p_ind = some j ∧
        j = s.indexOf (s.get ⟨j, hj⟩) ∧
        s.get ⟨j, hj⟩ < s.get ⟨i, hi⟩ ∧
        cntLE s (s.get ⟨j, hj⟩) = cntLT s (s.get ⟨i, hi⟩))))

/-- The `median` loop, started in the invariant with enough fuel, terminates
in a state bracketing rank `k`. -/
theorem med_loop_sound (s : List Nat) (hs : ∀ x ∈ s, x ≤ 255) (k : Nat)
    (hk : k < s.length) :
    ∀ (fuel : Nat) (st : MedState), MInv s k st → k < st.items + fuel →
      ∃ st2, med_loop s k fuel st = some st2 ∧ MInv s k st2 ∧ k < st2.items := by
  intro fuel
  induction fuel with
  | zero =>
    intro st hinv hfuel
    rcases hinv with h0 | hfound
    · subst h0
      have hfuel' : k < 0 + 0 := hfuel
      omega
    · refine ⟨st, ?_, Or.inr hfound, by omega⟩
      simp only [med_loop]
      rw [if_neg (by omega)]
  | succ fuel ih =>
    intro st hinv hfuel
    by_cases hik : st.items ≤ k
    · rcases hinv with h0 | ⟨i, hi, hv, hind, hitems, hlt, hvitems, hp⟩
      · subst h0
        have hfuel' : k < 0 + (fuel + 1) := hfuel
        have hne : s ≠ [] := by
          intro hcon
          rw [hcon] at hk
          simp at hk
        obtain ⟨ind, count, hnm, hi', hind', hcount', hle', hlt', hc1⟩ :=
          sel_first_step s hs hne
        have hstep : med_loop s k (fuel + 1) ⟨0, 0, none, none⟩ =
            med_loop s k fuel ⟨0 + count, count, some ind, none⟩ := by
          simp only [med_loop, if_pos hik, Option.map_none', hnm]
        rw [hstep]
        have h1 : 0 + count = cntLE s (s.get ⟨ind, hi'⟩) := by omega
        have h2 : cntLT s (s.get ⟨ind, hi'⟩) ≤ k := by omega
        have h4 : k < (0 + count) + fuel := by omega
        exact ih ⟨0 + count, count, some ind, none⟩
          (Or.inr ⟨ind, hi', rfl, hind', h1, h2, hcount', Or.inl ⟨rfl, hlt'⟩⟩) h4
      · have hroom : cntLE s (s.get ⟨i, hi⟩) < s.length := by omega
        obtain ⟨ind, count, hnm, hi', hind', hcount', hgt', hle', hlt', hc1⟩ :=
          sel_advance_step s hs (s.get_mem i hi) hroom
        have hprev : (Option.map (fun v_i => s.getD v_i 0) st.v_ind) =
            some (s.get ⟨i, hi⟩) := by
          rw [hv]
          simp only [Option.map_some', List.get_eq_getElem]
          rw [List.getD_eq_getElem s 0 hi]
        have hstep : med_loop s k (fuel + 1) st =
            med_loop s k fuel ⟨st.items + count, count, some ind, st.v_ind⟩ := by
          simp only [med_loop, if_pos hik]
          rw [hprev, hnm]
        rw [hstep]
        have h1 : st.items + count = cntLE s (s.get ⟨ind, hi'⟩) := by omega
        have h2 : cntLT s (s.get ⟨ind, hi'⟩) ≤ k := by omega
        have h3 : cntLE s (s.get ⟨i, hi⟩) = cntLT s (s.get ⟨ind, hi'⟩) := by omega
        have h4 : k < (st.items + count) + fuel := by omega
        exact ih ⟨st.items + count, count, some ind, st.v_ind⟩
          (Or.inr ⟨ind, hi', rfl, hind', h1, h2, hcount',
            Or.inr ⟨i, hi, hv, hind, hgt', h3⟩⟩) h4
    · rcases hinv with h0 | hfound
      · subst h0
        have hik' : ¬ (0 ≤ k) := hik
        omega
      · refine ⟨st, ?_, Or.inr hfound, by omega⟩
        simp only [med_loop]
        rw [if_neg hik]

/-- Running the fused median loop on a non-empty in-domain slice. -/
theorem median_run (s : List Nat) (hs : ∀ x ∈ s, x ≤ 255) (hne : s ≠ []) :
    ∃ st, med_loop s (s.length / 2) (s.length / 2 + 1) ⟨0, 0, none, none⟩ = some st ∧
      MInv s (s.length / 2) st ∧ s.length / 2 < st.items := by
  have hk : s.length / 2 < s.length :=
    Nat.div_lt_self (List.length_pos.mpr hne) one_lt_two
  exact med_loop_sound s hs _ hk (s.length / 2 + 1) ⟨0, 0, none, none⟩ (Or.inl rfl)
    (by omega : s.length / 2 < 0 + (s.length / 2 + 1))

/-- The selection-based `median` agrees with the sort-based `median_mut` on
every in-domain slice (both are `none` exactly on the empty slice). -/
theorem median_eq_median_mut (s : List Nat) (hs : ∀ x ∈ s, x ≤ 255) :
    median s = median_mut s := by
  by_cases hne : s = []
  · subst hne
    rfl
  obtain ⟨st, hloop, hinv, hgt⟩ := median_run s hs hne
  have hpos : 0 < s.length := List.length_pos.mpr hne
  have hk : s.length / 2 < s.length := Nat.div_lt_self hpos one_lt_two
  rcases hinv with h0 | ⟨i, hi, hv, hind, hitems, hlt, hvitems, hpbr⟩
  · subst h0
    have hgt' : s.length / 2 < 0 := hgt
    omega
  obtain ⟨hk2, hgetk⟩ :=
    sortedL_get_eq_of_cnt s (s.length / 2) hk (s.get ⟨i, hi⟩) hlt (by omega)
  simp only [median, median_mut, if_neg hne, sortedL] at hgetk hk2 ⊢
  rw [hloop]
  simp only [hv, Option.getD_some]
  rw [List.getD_eq_getElem s 0 hi, List.getD_eq_getElem _ 0 hk2]
  simp only [List.get_eq_getElem] at hgetk
  by_cases hpar : s.length % 2 = 0
  · simp only [if_pos hpar]
    have hcv := cntLE_eq_cntLT_add_count s (s.get ⟨i, hi⟩)
    simp only [List.get_eq_getElem] at hcv hitems hvitems hlt hgt
    have hpt : st.items - st.v_items = cntLT s (s[i]) := by omega
    rw [hpt]
    have hk1 : 1 ≤ s.length / 2 := by omega
    have hk1l : s.length / 2 - 1 < s.length := by omega
    by_cases hbr : s.length / 2 - 1 < cntLT s (s[i])
    · rw [if_pos hbr]
      rcases hpbr with ⟨_, h0⟩ | ⟨j, hj, hpj, hindj, hjlt, hjle⟩
      · simp only [List.get_eq_getElem] at h0
        omega
      · have hcj : 1 ≤ s.count (s.get ⟨j, hj⟩) :=
          List.count_pos_iff.mpr (s.get_mem j hj)
        have hcvj := cntLE_eq_cntLT_add_count s (s.get ⟨j, hj⟩)
        simp only [List.get_eq_getElem] at hcj hcvj hjle hjlt
        have h1 : cntLT s (s[j]) ≤ s.length / 2 - 1 := by omega
        have h2 : s.length / 2 - 1 < cntLE s (s[j]) := by omega
        obtain ⟨hk3, hgetl⟩ :=
          sortedL_get_eq_of_cnt s (s.length / 2 - 1) hk1l (s[j]) h1 h2
        simp only [sortedL, List.get_eq_getElem] at hgetl hk3
        rw [hpj]
        simp only [Option.getD_some]
        rw [List.getD_eq_getElem s 0 hj, List.getD_eq_getElem _ 0 hk3]
        rw [hgetk, hgetl]
    · rw [if_neg hbr]
      have h1 : cntLT s (s[i]) ≤ s.length / 2 - 1 := by omega
      have h2 : s.length / 2 - 1 < cntLE s (s[i]) := by omega
      obtain ⟨hk3, hgetl⟩ :=
        sortedL_get_eq_of_cnt s (s.length / 2 - 1) hk1l (s[i]) h1 h2
      simp only [sortedL, List.get_eq_getElem] at hgetl hk3
      rw [List.getD_eq_getElem _ 0 hk3, hgetk, hgetl]
      congr 1
      ring
  · simp only [if_neg hpar]
    rw [hgetk]

/-! ## Remaining small helpers -/

theorem median_mut_isSome (s : List Nat) (hne : s ≠ []) :
    ∃ q, median_mut s = some q := by
  simp only [median_mut, if_neg hne]
  by_cases hpar : s.length % 2 = 0
  · rw [if_pos hpar]
    exact ⟨_, rfl⟩
  · rw [if_neg hpar]
    exact ⟨_, rfl⟩

theorem median_ne_none (s : List Nat) (hs : ∀ x ∈ s, x ≤ 255) (hne : s ≠ []) :
    ∃ q, median s = some q := by
  obtain ⟨q, hq⟩ := median_mut_isSome s hne
  exact ⟨q, (median_eq_median_mut s hs).trans hq⟩

/-! ## The claims -/

/-- C1: with a sentinel `p` from the 8-bit domain, `next_min` returns
`some (i, c)` where `s[i]` is the smallest value strictly greater than `p`,
`i` is the lowest index among its occurrences and `c` its total count; it
returns `none` exactly when the slice is empty or nothing exceeds `p`, in
particular always for `p = 255`. -/
theorem next_min_sentinel_correct (s : List Nat) (p : Nat)
    (hs : ∀ x ∈ s, x ≤ 255) (hp : p ≤ 255) :
    (∀ i c, next_min s (some p) = some (i, c) →
      ∃ hi : i < s.length,
        p < s.get ⟨i, hi⟩ ∧
        (∀ x ∈ s, p < x → s.get ⟨i, hi⟩ ≤ x) ∧
        (∀ j, ∀ hj : j < i, s.get ⟨j, Nat.lt_trans hj hi⟩ ≠ s.get ⟨i, hi⟩) ∧
        c = s.count (s.get ⟨i, hi⟩)) ∧
    (next_min s (some p) = none ↔ s = [] ∨ ∀ x ∈ s, x ≤ p) ∧
    (p = 255 → next_min s (some p) = none) := by
  refine ⟨?_, next_min_some_eq_none_iff s p hs hp, ?_⟩
  · intro i c h
    obtain ⟨hi, h1, h2, h3, h4⟩ := next_min_some_spec s p hs hp h
    refine ⟨hi, h1, h2, ?_, h4⟩
    intro j hj
    exact get_ne_of_lt_indexOf _ (h3 ▸ hj)
  · intro hp255
    rw [next_min_some_eq_none_iff s p hs hp]
    refine Or.inr fun x hx => ?_
    have := hs x hx
    omega

/-- C1 witness: the documented example `next_min([0,2,5,7,2,1], Some(1))`. -/
theorem next_min_sentinel_correct_witness :
    (∀ x ∈ [0, 2, 5, 7, 2, 1], x ≤ 255) ∧
    ((∀ i c, next_min [0, 2, 5, 7, 2, 1] (some 1) = some (i, c) →
      ∃ hi : i < [0, 2, 5, 7, 2, 1].length,
        1 < [0, 2, 5, 7, 2, 1].get ⟨i, hi⟩ ∧
        (∀ x ∈ [0, 2, 5, 7, 2, 1], 1 < x → [0, 2, 5, 7, 2, 1].get ⟨i, hi⟩ ≤ x) ∧
        (∀ j, ∀ hj : j < i,
          [0, 2, 5, 7, 2, 1].get ⟨j, Nat.lt_trans hj hi⟩ ≠
            [0, 2, 5, 7, 2, 1].get ⟨i, hi⟩) ∧
        c = [0, 2, 5, 7, 2, 1].count ([0, 2, 5, 7, 2, 1].get ⟨i, hi⟩)) ∧
    (next_min [0, 2, 5, 7, 2, 1] (some 1) = none ↔
      [0, 2, 5, 7, 2, 1] = [] ∨ ∀ x ∈ [0, 2, 5, 7, 2, 1], x ≤ 1) ∧
    ((1 : Nat) = 255 → next_min [0, 2, 5, 7, 2, 1] (some 1) = none)) :=
  ⟨by decide, next_min_sentinel_correct [0, 2, 5, 7, 2, 1] 1 (by decide) (by decide)⟩

/-- C5: with no sentinel, `next_min` is `none` exactly on the empty slice and
otherwise returns the minimum value's first index and total count (also when
every element is the domain maximum 255). -/
theorem next_min_no_sentinel_correct (s : List Nat) (hs : ∀ x ∈ s, x ≤ 255) :
    (next_min s none = none ↔ s = []) ∧
    (∀ i c, next_min s none = some (i, c) →
      ∃ hi : i < s.length,
        (∀ x ∈ s, s.get ⟨i, hi⟩ ≤ x) ∧
        (∀ j, ∀ hj : j < i, s.get ⟨j, Nat.lt_trans hj hi⟩ ≠ s.get ⟨i, hi⟩) ∧
        c = s.count (s.get ⟨i, hi⟩)) := by
  refine ⟨next_min_none_eq_none_iff s hs, ?_⟩
  intro i c h
  obtain ⟨hi, h1, h2, h3⟩ := next_min_none_spec s hs h
  refine ⟨hi, h1, ?_, h3⟩
  intro j hj
  exact get_ne_of_lt_indexOf _ (h2 ▸ hj)

/-- C5 witness: the all-255 slice, where the `v_found` flag matters. -/
theorem next_min_no_sentinel_correct_witness :
    (∀ x ∈ [255, 255], x ≤ 255) ∧
    ((next_min [255, 255] none = none ↔ [255, 255] = ([] : List Nat)) ∧
    (∀ i c, next_min [255, 255] none = some (i, c) →
      ∃ hi : i < [255, 255].length,
        (∀ x ∈ [255, 255], [255, 255].get ⟨i, hi⟩ ≤ x) ∧
        (∀ j, ∀ hj : j < i,
          [255, 255].get ⟨j, Nat.lt_trans hj hi⟩ ≠ [255, 255].get ⟨i, hi⟩) ∧
        c = [255, 255].count ([255, 255].get ⟨i, hi⟩))) :=
  ⟨by decide, next_min_no_sentinel_correct [255, 255] (by decide)⟩

/-- C3: `kth_ind` is `none` exactly when `k` is out of range, and on a valid
rank returns an in-bounds index holding the value at position `k` of the
ascending sorted copy. -/
theorem kth_ind_correct (s : List Nat) (k : Nat) (hs : ∀ x ∈ s, x ≤ 255) :
    (kth_ind s k = none ↔ s.length ≤ k) ∧
    (∀ hk : k < s.length, ∃ i, ∃ hi : i < s.length, kth_ind s k = some i ∧
      ∃ hk2 : k < (sortedL s).length,
        s.get ⟨i, hi⟩ = (sortedL s).get ⟨k, hk2⟩) := by
  constructor
  · constructor
    · intro h
      by_contra hcon
      push_neg at hcon
      obtain ⟨i, hi, hsome, _⟩ := kth_ind_char s hs k hcon
      rw [h] at hsome
      exact Option.noConfusion hsome
    · intro h
      simp only [kth_ind]
      rw [if_pos h]
  · intro hk
    obtain ⟨i, hi, hsome, _, hk2, hget⟩ := kth_ind_char s hs k hk
    exact ⟨i, hi, hsome, hk2, hget.symm⟩

/-- C3 witness: rank 1 of `[2, 1, 2]`. -/
theorem kth_ind_correct_witness :
    (∀ x ∈ [2, 1, 2], x ≤ 255) ∧
    ((kth_ind [2, 1, 2] 1 = none ↔ [2, 1, 2].length ≤ 1) ∧
    (∀ hk : 1 < [2, 1, 2].length, ∃ i, ∃ hi : i < [2, 1, 2].length,
      kth_ind [2, 1, 2] 1 = some i ∧
      ∃ hk2 : 1 < (sortedL [2, 1, 2]).length,
        [2, 1, 2].get ⟨i, hi⟩ = (sortedL [2, 1, 2]).get ⟨1, hk2⟩)) :=
  ⟨by decide, kth_ind_correct [2, 1, 2] 1 (by decide)⟩

/-- C4: the search loops terminate on every valid input: with fuel `k + 1`
the `kth_ind` loop (and with fuel `len/2 + 1` the `median` loop) finishes
rather than exhausting its fuel, because every `next_min` call made with the
last found value as sentinel returns a strictly greater value and a positive
count, so the accumulated count strictly increases each iteration. -/
theorem loops_terminate (s : List Nat) (k : Nat) (hs : ∀ x ∈ s, x ≤ 255) :
    (k < s.length → ∃ r, kth_loop s k (k + 1) 0 none = some r) ∧
    (s ≠ [] → ∃ st,
      med_loop s (s.length / 2) (s.length / 2 + 1) ⟨0, 0, none, none⟩ = some st) ∧
    (∀ p i c, p ≤ 255 → next_min s (some p) = some (i, c) →
      p < s.getD i 0 ∧ 1 ≤ c) := by
  refine ⟨?_, ?_, ?_⟩
  · intro hk
    obtain ⟨i, hi, hloop, _⟩ :=
      kth_loop_sound s hs k hk (k + 1) 0 none (Or.inl ⟨rfl, rfl⟩) (by omega)
    exact ⟨some i, hloop⟩
  · intro hne
    obtain ⟨st, hloop, _, _⟩ := median_run s hs hne
    exact ⟨st, hloop⟩
  · intro p i c hp h
    obtain ⟨hi, h1, _, _, h4⟩ := next_min_some_spec s p hs hp h
    constructor
    · rw [List.getD_eq_getElem s 0 hi]
      simpa [List.get_eq_getElem] using h1
    · have : s.get ⟨i, hi⟩ ∈ s := s.get_mem i hi
      have := List.count_pos_iff.mpr this
      omega

/-- C4 witness: `[0, 1, 1]` with rank 2. -/
theorem loops_terminate_witness :
    (∀ x ∈ [0, 1, 1], x ≤ 255) ∧
    ((2 < [0, 1, 1].length → ∃ r, kth_loop [0, 1, 1] 2 (2 + 1) 0 none = some r) ∧
    ([0, 1, 1] ≠ ([] : List Nat) → ∃ st,
      med_loop [0, 1, 1] ([0, 1, 1].length / 2) ([0, 1, 1].length / 2 + 1)
        ⟨0, 0, none, none⟩ = some st) ∧
    (∀ p i c, p ≤ 255 → next_min [0, 1, 1] (some p) = some (i, c) →
      p < [0, 1, 1].getD i 0 ∧ 1 ≤ c)) :=
  ⟨by decide, loops_terminate [0, 1, 1] 2 (by decide)⟩

/-- Accumulator form of the squared-deviation fold in `std_dev_pop`. -/
theorem sq_foldl_eq (avg : Rational) :
    ∀ (l : List Nat) (a : Rational),
      l.foldl (fun (acc : Rational) (e : Nat) =>
          acc + (((e : Rational) - avg) * ((e : Rational) - avg))) a =
        a + (l.map (fun (x : Nat) => ((x : Rational) - avg) * ((x : Rational) - avg))).sum
  | [], a => by simp
  | e :: t, a => by
    rw [List.foldl_cons, List.map_cons, List.sum_cons]
    rw [sq_foldl_eq avg t _]
    ring

/-- C2: the selection-based fused `median` equals the sort-based reference
`median_mut` on every in-domain slice; both are `none` on the empty slice. -/
theorem median_refines_sorted (s : List Nat) (hs : ∀ x ∈ s, x ≤ 255) :
    median s = median_mut s ∧
    (s = [] → median s = none ∧ median_mut s = none) := by
  refine ⟨median_eq_median_mut s hs, ?_⟩
  intro h
  subst h
  exact ⟨rfl, rfl⟩

/-- C2 witness: the documented example `[1, 2, 6, 7, 6, 1]`. -/
theorem median_refines_sorted_witness :
    (∀ x ∈ [1, 2, 6, 7, 6, 1], x ≤ 255) ∧
    (median [1, 2, 6, 7, 6, 1] = median_mut [1, 2, 6, 7, 6, 1] ∧
     ([1, 2, 6, 7, 6, 1] = ([] : List Nat) →
       median [1, 2, 6, 7, 6, 1] = none ∧ median_mut [1, 2, 6, 7, 6, 1] = none)) :=
  ⟨by decide, median_refines_sorted [1, 2, 6, 7, 6, 1] (by decide)⟩

/-- C6: `kth_ind` is monotonically consistent: for valid ranks `k1 < k2` the
value found for `k1` is at most the value found for `k2`. -/
theorem kth_ind_monotone (s : List Nat) (hs : ∀ x ∈ s, x ≤ 255)
    (k1 k2 : Nat) (h12 : k1 < k2) (hk2 : k2 < s.length) :
    ∀ i1 i2, kth_ind s k1 = some i1 → kth_ind s k2 = some i2 →
      s.getD i1 0 ≤ s.getD i2 0 := by
  intro i1 i2 h1 h2
  have hk1 : k1 < s.length := Nat.lt_trans h12 hk2
  obtain ⟨j1, hj1, hs1, _, hq1, hg1⟩ := kth_ind_char s hs k1 hk1
  obtain ⟨j2, hj2, hs2, _, hq2, hg2⟩ := kth_ind_char s hs k2 hk2
  rw [h1] at hs1
  rw [h2] at hs2
  have e1 : i1 = j1 := Option.some.inj hs1
  have e2 : i2 = j2 := Option.some.inj hs2
  subst e1
  subst e2
  have hsorted : (sortedL s).Sorted (· ≤ ·) := List.sorted_insertionSort _ s
  have hmono : (sortedL s).get ⟨k1, hq1⟩ ≤ (sortedL s).get ⟨k2, hq2⟩ :=
    hsorted.rel_get_of_le (Fin.mk_le_mk.mpr (le_of_lt h12))
  rw [List.getD_eq_getElem s 0 hj1, List.getD_eq_getElem s 0 hj2]
  simp only [List.get_eq_getElem] at hg1 hg2 hmono
  rw [hg1, hg2] at hmono
  exact hmono

/-- C6 witness: `[3, 1, 2]` with ranks 0 and 2. -/
theorem kth_ind_monotone_witness :
    (∀ x ∈ [3, 1, 2], x ≤ 255) ∧
    (∀ i1 i2, kth_ind [3, 1, 2] 0 = some i1 → kth_ind [3, 1, 2] 2 = some i2 →
      [3, 1, 2].getD i1 0 ≤ [3, 1, 2].getD i2 0) :=
  ⟨by decide, kth_ind_monotone [3, 1, 2] (by decide) 0 2 (by decide) (by decide)⟩

/-- C7: every statistic is `none` exactly on the empty slice; in the skew
composition the `None` of the first constituent propagates, and absence is
the only error signal. -/
theorem empty_input_error (s : List Nat) (hs : ∀ x ∈ s, x ≤ 255)
    (sqrtA : Rational → Rational) :
    (mean s = none ↔ s = []) ∧
    (median s = none ↔ s = []) ∧
    (∀ avg, std_dev_pop sqrtA avg s = none ↔ s = []) ∧
    (pearson_skew_median sqrtA s = none ↔ s = []) := by
  have hmean : mean s = none ↔ s = [] := by
    constructor
    · intro h
      by_contra hne
      simp [mean, hne] at h
    · intro h
      subst h
      rfl
  have hmed : median s = none ↔ s = [] := by
    constructor
    · intro h
      by_contra hne
      obtain ⟨q, hq⟩ := median_ne_none s hs hne
      rw [h] at hq
      exact Option.noConfusion hq
    · intro h
      subst h
      rfl
  have hstd : ∀ avg, std_dev_pop sqrtA avg s = none ↔ s = [] := by
    intro avg
    constructor
    · intro h
      by_contra hne
      simp [std_dev_pop, hne] at h
    · intro h
      subst h
      rfl
  refine ⟨hmean, hmed, hstd, ?_⟩
  constructor
  · intro h
    by_contra hne
    obtain ⟨q, hq⟩ := median_ne_none s hs hne
    simp [pearson_skew_median, mean, hne, hq, std_dev_pop] at h
  · intro h
    subst h
    rfl

/-- C7 witness: the singleton slice `[5]` with the identity square root. -/
theorem empty_input_error_witness :
    (∀ x ∈ [5], x ≤ 255) ∧
    ((mean [5] = none ↔ [5] = ([] : List Nat)) ∧
    (median [5] = none ↔ [5] = ([] : List Nat)) ∧
    (∀ avg, std_dev_pop id avg [5] = none ↔ [5] = ([] : List Nat)) ∧
    (pearson_skew_median id [5] = none ↔ [5] = ([] : List Nat))) :=
  ⟨by decide, empty_input_error [5] (by decide) id⟩

/-- C8: on every non-empty in-domain slice the skew is `Some` of exactly
`3 (mean - median) / std_dev`, with no special case for a zero standard
deviation: the division is performed unconditionally. -/
theorem pearson_formula (s : List Nat) (hs : ∀ x ∈ s, x ≤ 255)
    (sqrtA : Rational → Rational) (hne : s ≠ []) :
    ∃ avg med std, mean s = some avg ∧ median s = some med ∧
      std_dev_pop sqrtA avg s = some std ∧
      pearson_skew_median sqrtA s = some (3 * (avg - med) / std) := by
  obtain ⟨med, hmed⟩ := median_ne_none s hs hne
  refine ⟨(s.foldl (fun (acc : Rational) (e : Nat) => acc + (e : Rational)) 0) /
    (s.length : Rational), med, ?_, ?_, hmed, ?_, ?_⟩
  · exact sqrtA ((s.foldl (fun (acc : Rational) (e : Nat) => acc +
      (((e : Rational) - ((s.foldl (fun (acc : Rational) (e : Nat) =>
          acc + (e : Rational)) 0) / (s.length : Rational))) *
       ((e : Rational) - ((s.foldl (fun (acc : Rational) (e : Nat) =>
          acc + (e : Rational)) 0) / (s.length : Rational))))) 0) /
      (s.length : Rational))
  · simp [mean, hne]
  · simp [std_dev_pop, hne]
  · simp [pearson_skew_median, mean, hne, hmed, std_dev_pop]

/-- C8 witness: the documented skew example `[0, 0, 0, 5, 10]`. -/
theorem pearson_formula_witness :
    (∀ x ∈ [0, 0, 0, 5, 10], x ≤ 255) ∧
    (∃ avg med std, mean [0, 0, 0, 5, 10] = some avg ∧
      median [0, 0, 0, 5, 10] = some med ∧
      std_dev_pop id avg [0, 0, 0, 5, 10] = some std ∧
      pearson_skew_median id [0, 0, 0, 5, 10] = some (3 * (avg - med) / std)) :=
  ⟨by decide, pearson_formula [0, 0, 0, 5, 10] (by decide) id (by decide)⟩

/-- C9: on a non-empty slice, `std_dev_pop` is `Some` of the approximate
square root applied to the sum of squared deviations from the supplied mean,
normalized by the element count `N` (population normalization). -/
theorem std_dev_pop_formula (s : List Nat) (avg : Rational)
    (sqrtA : Rational → Rational) (hne : s ≠ []) :
    std_dev_pop sqrtA avg s =
      some (sqrtA
        ((s.map (fun (x : Nat) => ((x : Rational) - avg) * ((x : Rational) - avg))).sum /
          (s.length : Rational))) := by
  simp only [std_dev_pop, if_neg hne]
  rw [sq_foldl_eq avg s 0, zero_add]

/-- C9 witness: the documented example `[0, 0, 0, 5, 10]` with its mean 3. -/
theorem std_dev_pop_formula_witness :
    std_dev_pop id 3 [0, 0, 0, 5, 10] =
      some (id
        (([0, 0, 0, 5, 10].map
          (fun (x : Nat) => ((x : Rational) - 3) * ((x : Rational) - 3))).sum /
          (([0, 0, 0, 5, 10] : List Nat).length : Rational))) :=
  std_dev_pop_formula [0, 0, 0, 5, 10] 3 id (by decide)

/-- C10: the `median` search never reaches a panicking state: the loop ends
with `v_ind` set to an in-bounds index, `v_items ≤ items` (so the subtraction
cannot underflow), for even lengths `k = len/2 ≥ 1` (so `k - 1` cannot
underflow), and whenever the averaging branch is taken `p_ind` is set to an
in-bounds index. -/
theorem median_no_panic (s : List Nat) (hs : ∀ x ∈ s, x ≤ 255) (hne : s ≠ []) :
    ∃ st, med_loop s (s.length / 2) (s.length / 2 + 1) ⟨0, 0, none, none⟩ = some st ∧
      (∃ i, st.v_ind = some i ∧ i < s.length) ∧
      st.v_items ≤ st.items ∧
      (s.length % 2 = 0 →
        1 ≤ s.length / 2 ∧
        (s.length / 2 - 1 < st.items - st.v_items →
          ∃ j, st.p_ind = some j ∧ j < s.length)) := by
  obtain ⟨st, hloop, hinv, hgt⟩ := median_run s hs hne
  rcases hinv with h0 | ⟨i, hi, hv, hind, hitems, hlt, hvitems, hpbr⟩
  · subst h0
    have hgt' : s.length / 2 < 0 := hgt
    omega
  have hcv := cntLE_eq_cntLT_add_count s (s.get ⟨i, hi⟩)
  have hcnt := count_le_cntLE s (s.get ⟨i, hi⟩)
  have hpos : 0 < s.length := List.length_pos.mpr hne
  refine ⟨st, hloop, ⟨i, hv, hi⟩, by omega, ?_⟩
  intro hpar
  refine ⟨by omega, ?_⟩
  intro hbr
  have hptot : st.items - st.v_items = cntLT s (s.get ⟨i, hi⟩) := by omega
  rcases hpbr with ⟨hpnone, h0⟩ | ⟨j, hj, hpj, _, _, _⟩
  · rw [hptot, h0] at hbr
    omega
  · exact ⟨j, hpj, hj⟩

/-- C10 witness: the even-length slice `[1, 2, 1, 2]`. -/
theorem median_no_panic_witness :
    (∀ x ∈ [1, 2, 1, 2], x ≤ 255) ∧
    (∃ st, med_loop [1, 2, 1, 2] ([1, 2, 1, 2].length / 2)
        ([1, 2, 1, 2].length / 2 + 1) ⟨0, 0, none, none⟩ = some st ∧
      (∃ i, st.v_ind = some i ∧ i < [1, 2, 1, 2].length) ∧
      st.v_items ≤ st.items ∧
      ([1, 2, 1, 2].length % 2 = 0 →
        1 ≤ [1, 2, 1, 2].length / 2 ∧
        ([1, 2, 1, 2].length / 2 - 1 < st.items - st.v_items →
          ∃ j, st.p_ind = some j ∧ j < [1, 2, 1, 2].length))) :=
  ⟨by decide, median_no_panic [1, 2, 1, 2] (by decide) (by decide)⟩

end ApproxPearsonSkew
